import Mathlib

/-!
Verification of the Poseidon Merkle-branch extractor and cipher constants
of the `wc-zk-poseidon252-merkle-tree` repository, via a shallow embedding
of `src/merkle_proof/poseidon_branch.rs` and `src/cipher/mod.rs`.
-/

namespace DuskPoseidon

/-- Order of the BLS12-381 scalar field, the modulus of `dusk_plonk::bls12_381::Scalar`. -/
abbrev blsModulus : Nat :=
  52435875175126190479447740508185965837690552500527637822603658699938581184513

/-- Shallow embedding of `BlsScalar` (`dusk_plonk::bls12_381::Scalar`):
an element of the prime field of order `blsModulus`. -/
abbrev Scalar := ZMod blsModulus

/-- Modelled from the spec: the crate root constant `crate::ARITY` (the crate's
`lib.rs` is not under `src/`); the spec fixes `ARITY = 4`. -/
def ARITY : Nat := 4

/-- The `hades252::WIDTH` constant (external crate): per the spec glossary,
`WIDTH = ARITY + 1` accounts for the added bitmask slot (value 5). -/
def WIDTH : Nat := ARITY + 1

/-- Embedding of `PoseidonLevel`: `offset` and the `WIDTH`-wide `leaves` array
(`src/merkle_proof/poseidon_branch.rs`, lines 149-155). -/
structure PoseidonLevel where
  offset : Nat
  leaves : List Scalar
deriving DecidableEq, Repr

/-- The `Default` impl for `PoseidonLevel`: offset 0, all-zero leaves. -/
def PoseidonLevel.defaultLevel : PoseidonLevel :=
  { offset := 0, leaves := List.replicate WIDTH 0 }

/-- Embedding of `PoseidonBranch` (`src/merkle_proof/poseidon_branch.rs`, lines 21-30). -/
structure PoseidonBranch where
  root : Scalar
  levels : List PoseidonLevel
  padding_levels : List PoseidonLevel
deriving DecidableEq, Repr

/-- `PoseidonBranch::new()`: zero root, empty `levels` and `padding_levels`. -/
def PoseidonBranch.new : PoseidonBranch :=
  { root := 0, levels := [], padding_levels := [] }

/-- `PoseidonBranch::with_capacity(n)`: the capacity of a Rust `Vec` is not part of
its value (derived `PartialEq` compares elements only), so as a value this is the
same branch as `new()`; the argument `n` only pre-reserves memory. -/
def PoseidonBranch.withCapacity (n : Nat) : PoseidonBranch :=
  let _ := n
  { root := 0, levels := [], padding_levels := [] }

/-- `PoseidonBranch::root(&self)`: returns the stored `root` field (named `root'`
here because the Lean field projection already uses the source name `root`). -/
def PoseidonBranch.root' (b : PoseidonBranch) : Scalar :=
  b.root

/-- Embedding of one level of a Kelvin `Branch` as seen by the extractor:
`ann` models `level.annotation()` (the level's cached annotation value, `None`
for an empty node), `children` models `level.children()` (each child either
occupied with an annotation value or empty), `offset` models `level.offset()`. -/
structure StoreLevel where
  ann : Option Scalar
  children : List (Option Scalar)
  offset : Nat
deriving DecidableEq, Repr

/-- Embedding of a Kelvin `Branch`: the ordered, root-first list of levels
reported by `branch.levels()`. -/
structure KelvinBranch where
  levels : List StoreLevel
deriving DecidableEq, Repr

/-- The bitflag accumulation loop of the `From<&Branch>` impl
(`poseidon_branch.rs`, lines 66-96): children are visited in order with their
index; an occupied child at index `idx` ORs in `1 << (ARITY - 1 - idx)`.
All set bits are below `2 ^ ARITY`, so the Rust `u64` arithmetic is exact
and modelled directly on `Nat`. -/
def bitflagsGo : List (Option Scalar) → Nat → Nat
  | [], _ => 0
  | some _ :: cs, idx => (1 <<< (ARITY - 1 - idx)) ||| bitflagsGo cs (idx + 1)
  | none :: cs, idx => bitflagsGo cs (idx + 1)

/-- The bitflags of a store level: the loop zips `children` with the `ARITY`
leaf slots after slot 0, so only the first `ARITY` children are visited. -/
def levelBitflags (children : List (Option Scalar)) : Nat :=
  bitflagsGo (children.take ARITY) 0

/-- The `leaves` array built by the `From<&Branch>` impl for one level
(`poseidon_branch.rs`, lines 63-101): slot 0 holds the bitflags embedded as a
scalar; slot `1 + i` holds child `i`'s annotation value when occupied and the
zero scalar otherwise (slots past the end of `children` keep the zero of the
`Default` level). -/
def mkLeaves (children : List (Option Scalar)) : List Scalar :=
  ((levelBitflags children : Nat) : Scalar) ::
    (List.range ARITY).map (fun i => (children.getD i none).getD 0)

/-- The `PoseidonLevel` built from one store level by the `From<&Branch>` impl:
leaves as in `mkLeaves`, and `offset = level.offset() + 1`
(`poseidon_branch.rs`, line 109). -/
def mkLevel (sl : StoreLevel) : PoseidonLevel :=
  { offset := sl.offset + 1, leaves := mkLeaves sl.children }

/-- Embedding of `impl From<&Branch> for PoseidonBranch` (`poseidon_branch.rs`,
lines 44-114): the root is copied from the first (top) level's annotation, the
levels are pushed in reverse order (store is root-first, branch is leaf-first),
and `padding_levels` is left as built by `PoseidonBranch::new()`. The two
`expect` panics (empty branch, missing root annotation) are modelled as `none`. -/
def fromBranch (b : KelvinBranch) : Option PoseidonBranch :=
  match b.levels.head? with
  | none => none
  | some top =>
    match top.ann with
    | none => none
    | some r =>
      some { root := r
             levels := b.levels.reverse.map mkLevel
             padding_levels := [] }

/-- Modelled from the spec: the configured fixed tree depth ("fixed circuit
depth"). The constant itself is not under `src/`; the repository's tests
(`tests/tree.rs`) use `DEPTH = 17`. -/
def TREE_DEPTH : Nat := 17

/-- Embedding of `MESSAGE_CAPACITY` (`src/cipher/mod.rs`, line 5): maximum
number of scalars allowed per message. -/
def MESSAGE_CAPACITY : Nat := 2

/-- Embedding of `CIPHER_SIZE` (`src/cipher/mod.rs`, line 8): number of
scalars used in a cipher. -/
def CIPHER_SIZE : Nat := MESSAGE_CAPACITY + 1

/-- Embedding of `ENCRYPTED_DATA_SIZE` (`src/cipher/mod.rs`, line 11): bytes
consumed on serialization of the poseidon cipher. -/
def ENCRYPTED_DATA_SIZE : Nat := CIPHER_SIZE * 32

/-- Modelled from the spec: zero-padding of a message to `MESSAGE_CAPACITY`
words ("Unused message slots (when fewer than capacity words are supplied) are
treated as zero"); the cipher implementation `src/cipher/cipher.rs` is not
under `src/`. -/
def padMessage (message : List Scalar) : List Scalar :=
  message.take MESSAGE_CAPACITY ++
    List.replicate (MESSAGE_CAPACITY - message.length) 0

/-- Modelled from the spec: a fixed nonzero constant giving the cipher's
permutation state "domain separation from any other use of the permutation". -/
def cipherDomainSep : Scalar := 4294967296

/-- Modelled from the spec: the `WIDTH`-wide permutation state "seeded from
`(secret, nonce)` with domain separation"; the secret is taken as one scalar
and the remaining slot is zero. -/
def initialState (secret nonce : Scalar) : List Scalar :=
  [cipherDomainSep, (MESSAGE_CAPACITY : Scalar), secret, nonce, 0]

/-- Modelled from the spec: the keystream of `WIDTH` scalars, derived "by
running the permutation over a state seeded from `(secret, nonce)`". -/
def keystream (perm : List Scalar → List Scalar) (secret nonce : Scalar) :
    List Scalar :=
  perm (initialState secret nonce)

/-- Modelled from the spec: the ciphertext words, each message word combined
"with the corresponding keystream word via field addition". -/
def cipherWords (perm : List Scalar → List Scalar) (message : List Scalar)
    (secret nonce : Scalar) : List Scalar :=
  List.zipWith (· + ·) (padMessage message)
    ((keystream perm secret nonce).take MESSAGE_CAPACITY)

/-- Modelled from the spec: the authentication tag, derived "by running the
permutation again over a state built from the ciphertext words and the
keystream state, and taking one output word as the tag". -/
def tagOf (perm : List Scalar → List Scalar) (cw : List Scalar)
    (secret nonce : Scalar) : Scalar :=
  (perm (cw ++ (keystream perm secret nonce).drop MESSAGE_CAPACITY)).headD 0

/-- Modelled from the spec: `encrypt(message, secret, nonce) -> Cipher`, the
`CIPHER_SIZE` scalars `(word0, word1, tag)`. -/
def encrypt (perm : List Scalar → List Scalar) (message : List Scalar)
    (secret nonce : Scalar) : List Scalar :=
  cipherWords perm message secret nonce ++
    [tagOf perm (cipherWords perm message secret nonce) secret nonce]

/-- Modelled from the spec: `decrypt(cipher, secret, nonce)`: recomputes the
keystream deterministically from `(secret, nonce)`, recovers candidate message
words by inverting the field addition, recomputes the tag over the candidate
ciphertext and keystream state, and succeeds only if the recomputed tag equals
the stored tag. -/
def decrypt (perm : List Scalar → List Scalar) (cipher : List Scalar)
    (secret nonce : Scalar) : Option (List Scalar) :=
  if tagOf perm (cipher.take MESSAGE_CAPACITY) secret nonce
      = cipher.getD MESSAGE_CAPACITY 0 then
    some (List.zipWith (fun c k => c - k) (cipher.take MESSAGE_CAPACITY)
      ((keystream perm secret nonce).take MESSAGE_CAPACITY))
  else
    none

/-- Modelled from the spec: the canonical 32-byte little-endian encoding of one
scalar (`BlsScalar::to_bytes`, external crate). -/
def scalarToBytes (s : Scalar) : List Nat :=
  (List.range 32).map (fun i => (s.val >>> (8 * i)) % 256)

/-- Modelled from the spec: serialization of a cipher as "three consecutive
32-byte canonical scalar encodings in word order (word0, word1, tag)". -/
def cipherToBytes (c : List Scalar) : List Nat :=
  (c.map scalarToBytes).flatten

/-- A concrete width-preserving permutation used only for witness evaluation. -/
def testPerm (st : List Scalar) : List Scalar :=
  (st.map (fun x => x + 1) ++ List.replicate WIDTH 0).take WIDTH

section Examples

/-- Concrete example: top (root) store level of a two-level path. -/
def l0Ex : StoreLevel := ⟨some 5, [some 1, none, none, none], 0⟩

/-- Concrete example: bottom (leaf) store level, with children
`[occupied(7), empty, empty, occupied(9)]` and continuation offset 2. -/
def slEx : StoreLevel := ⟨some 2, [some 7, none, none, some 9], 2⟩

/-- Concrete example: a two-level store path, reported root-first. -/
def bEx : KelvinBranch := ⟨[l0Ex, slEx]⟩

/-- The `PoseidonBranch` that `fromBranch` produces from `bEx`. -/
def pbEx : PoseidonBranch := ⟨5, [⟨3, [9, 7, 0, 0, 9]⟩, ⟨1, [8, 1, 0, 0, 0]⟩], []⟩

/-- Concrete example: a store level whose reported offset 7 lies outside `[0, ARITY)`. -/
def slBad : StoreLevel := ⟨some 0, [], 7⟩

end Examples

section HelperLemmas

lemma bitflagsGo_testBit (cs : List (Option Scalar)) :
    ∀ idx i : Nat, idx + cs.length ≤ ARITY → i < ARITY →
      (Nat.testBit (bitflagsGo cs idx) (ARITY - 1 - i) = true ↔
        idx ≤ i ∧ (cs.getD (i - idx) none).isSome = true) := by
  induction cs with
  | nil =>
    intro idx i _ _
    simp [bitflagsGo]
  | cons c cs ih =>
    intro idx i h hi
    have hlen : (idx + 1) + cs.length ≤ ARITY := by
      simp only [List.length_cons] at h; omega
    have hidx : idx < ARITY := by
      simp only [List.length_cons] at h; omega
    match c with
    | none =>
      rw [show bitflagsGo (none :: cs) idx = bitflagsGo cs (idx + 1) from rfl]
      rw [ih (idx + 1) i hlen hi]
      rcases Nat.lt_trichotomy i idx with hlt | heq | hgt
      · constructor
        · rintro ⟨h1, _⟩; omega
        · rintro ⟨h1, _⟩; omega
      · subst heq
        constructor
        · rintro ⟨h1, _⟩; omega
        · rintro ⟨_, h2⟩
          rw [show i - i = 0 from by omega, List.getD_cons_zero] at h2
          simp at h2
      · have hstep : i - idx = (i - (idx + 1)) + 1 := by omega
        rw [hstep, List.getD_cons_succ]
        constructor
        · rintro ⟨_, h2⟩; exact ⟨by omega, h2⟩
        · rintro ⟨_, h2⟩; exact ⟨by omega, h2⟩
    | some v =>
      rw [show bitflagsGo (some v :: cs) idx
            = (1 <<< (ARITY - 1 - idx)) ||| bitflagsGo cs (idx + 1) from rfl]
      rw [Nat.testBit_or, Nat.one_shiftLeft, Nat.testBit_two_pow]
      by_cases hii : i = idx
      · subst hii
        rw [show i - i = 0 from by omega, List.getD_cons_zero]
        simp
      · have hne : ARITY - 1 - idx ≠ ARITY - 1 - i := by omega
        rw [decide_eq_false hne, Bool.false_or]
        rw [ih (idx + 1) i hlen hi]
        rcases Nat.lt_trichotomy i idx with hlt | heq | hgt
        · constructor
          · rintro ⟨h1, _⟩; omega
          · rintro ⟨h1, _⟩; omega
        · exact absurd heq hii
        · have hstep : i - idx = (i - (idx + 1)) + 1 := by omega
          rw [hstep, List.getD_cons_succ]
          constructor
          · rintro ⟨_, h2⟩; exact ⟨by omega, h2⟩
          · rintro ⟨_, h2⟩; exact ⟨by omega, h2⟩

lemma getD_take_of_lt (l : List (Option Scalar)) (n i : Nat) (h : i < n) :
    (l.take n).getD i none = l.getD i none := by
  induction l generalizing n i with
  | nil => simp
  | cons c cs ih =>
    match n, i with
    | n + 1, 0 => simp
    | n + 1, i + 1 =>
      simp only [List.take_succ_cons, List.getD_cons_succ]
      exact ih n i (by omega)

lemma levelBitflags_testBit (children : List (Option Scalar)) (i : Nat) (hi : i < ARITY) :
    Nat.testBit (levelBitflags children) (ARITY - 1 - i) = true ↔
      (children.getD i none).isSome = true := by
  rw [levelBitflags, bitflagsGo_testBit (children.take ARITY) 0 i
    (by simp [List.length_take]) hi]
  rw [Nat.sub_zero, getD_take_of_lt children ARITY i hi]
  simp

lemma fromBranch_some (b : KelvinBranch) (pb : PoseidonBranch) (h : fromBranch b = some pb) :
    pb.levels = b.levels.reverse.map mkLevel ∧ pb.padding_levels = [] ∧
      ∃ top, b.levels.head? = some top ∧ top.ann = some pb.root := by
  obtain ⟨levels⟩ := b
  cases levels with
  | nil => exact absurd h (by simp [fromBranch])
  | cons top rest =>
    unfold fromBranch at h
    simp only [List.head?_cons] at h
    cases hann : top.ann with
    | none => rw [hann] at h; exact absurd h (by simp)
    | some r =>
      rw [hann] at h
      injection h with h
      subst h
      exact ⟨rfl, rfl, top, rfl, hann⟩

lemma fromBranch_levels_getElem (b : KelvinBranch) (pb : PoseidonBranch)
    (h : fromBranch b = some pb) (i : Nat) (hi : i < b.levels.length) :
    pb.levels[i]? = (b.levels[b.levels.length - 1 - i]?).map mkLevel := by
  rw [(fromBranch_some b pb h).1, List.getElem?_map,
    List.getElem?_reverse (by simpa using hi)]

lemma fromBranch_levels_length (b : KelvinBranch) (pb : PoseidonBranch)
    (h : fromBranch b = some pb) : pb.levels.length = b.levels.length := by
  rw [(fromBranch_some b pb h).1]
  simp

lemma bitflagsGo_eq_zero (cs : List (Option Scalar)) :
    ∀ idx, (∀ c ∈ cs, c = none) → bitflagsGo cs idx = 0 := by
  induction cs with
  | nil => intro idx _; rfl
  | cons c cs ih =>
    intro idx h
    have hc : c = none := h c (by simp)
    subst hc
    exact ih (idx + 1) (fun c hc => h c (by simp [hc]))

lemma getD_eq_none_of_all_none (children : List (Option Scalar))
    (h : ∀ c ∈ children, c = none) (k : Nat) : children.getD k none = none := by
  induction children generalizing k with
  | nil => simp
  | cons c cs ih =>
    cases k with
    | zero => simpa using h c (by simp)
    | succ k => simpa using ih (fun c hc => h c (by simp [hc])) k

lemma all_none_forall (children : List (Option Scalar))
    (h : children.all Option.isNone = true) : ∀ c ∈ children, c = none := by
  intro c hc
  exact Option.isNone_iff_eq_none.mp (List.all_eq_true.mp h c hc)

lemma levelBitflags_all_none (children : List (Option Scalar))
    (h : children.all Option.isNone = true) : levelBitflags children = 0 :=
  bitflagsGo_eq_zero _ 0
    (fun c hc => all_none_forall children h c (List.take_subset _ _ hc))

lemma mkLeaves_all_none (children : List (Option Scalar))
    (h : children.all Option.isNone = true) :
    mkLeaves children = List.replicate WIDTH 0 := by
  have h' : ∀ c ∈ children, c = none := all_none_forall children h
  rw [show List.replicate WIDTH (0 : Scalar) = 0 :: List.replicate ARITY 0 from rfl]
  rw [mkLeaves, levelBitflags_all_none children h]
  refine congrArg₂ _ Nat.cast_zero ?_
  rw [List.eq_replicate_iff]
  refine ⟨by simp, ?_⟩
  intro x hx
  obtain ⟨k, _, rfl⟩ := List.mem_map.mp hx
  rw [getD_eq_none_of_all_none children h' k]
  rfl

lemma mkLeaves_getD (children : List (Option Scalar)) (j : Nat) (hj : j < ARITY) :
    (mkLeaves children).getD (1 + j) 0 = (children.getD j none).getD 0 := by
  rw [show 1 + j = j + 1 from Nat.add_comm 1 j]
  rw [mkLeaves, List.getD_cons_succ]
  rw [List.getD_eq_getElem?_getD, List.getElem?_map, List.getElem?_range hj]
  rfl

lemma mkLeaves_length (children : List (Option Scalar)) :
    (mkLeaves children).length = WIDTH := by
  simp [mkLeaves, WIDTH]

lemma zipWith_sub_zipWith_add (a b : List Scalar) (h : a.length = b.length) :
    List.zipWith (fun c k => c - k) (List.zipWith (· + ·) a b) b = a := by
  induction a generalizing b with
  | nil => simp
  | cons x xs ih =>
    cases b with
    | nil => simp at h
    | cons y ys =>
      simp only [List.zipWith_cons_cons]
      rw [ih ys (by simpa using h)]
      simp

lemma padMessage_length (message : List Scalar)
    (h : message.length ≤ MESSAGE_CAPACITY) :
    (padMessage message).length = MESSAGE_CAPACITY := by
  simp only [padMessage, List.length_append, List.length_take,
    List.length_replicate, MESSAGE_CAPACITY]
  have h2 : message.length ≤ 2 := h
  omega

lemma cipherWords_length (perm : List Scalar → List Scalar)
    (message : List Scalar) (secret nonce : Scalar)
    (hperm : ∀ st, (perm st).length = WIDTH)
    (hlen : message.length ≤ MESSAGE_CAPACITY) :
    (cipherWords perm message secret nonce).length = MESSAGE_CAPACITY := by
  rw [cipherWords, List.length_zipWith, padMessage_length message hlen,
    List.length_take, keystream, hperm]
  decide

end HelperLemmas

/-- C1: for every level produced by the branch extractor, bit `(ARITY-1-i)` of
the integer embedded as the scalar in `leaves[0]` is set iff child `i` of the
source store level was occupied; concretely, children
`[occupied(7), empty, empty, occupied(9)]` yield bitflags `0b1001 = 9` and
`leaves = [scalar(9), 7, 0, 0, 9]`. -/
theorem bitmask_bit_iff_occupied (b : KelvinBranch) (pb : PoseidonBranch)
    (sl : StoreLevel) (i j : Nat) (hb : fromBranch b = some pb)
    (hsl : b.levels[b.levels.length - 1 - i]? = some sl)
    (hi : i < b.levels.length) (hj : j < ARITY) :
    pb.levels[i]? = some (mkLevel sl) ∧
    (mkLevel sl).leaves.headD 0 = ((levelBitflags sl.children : Nat) : Scalar) ∧
    (Nat.testBit (levelBitflags sl.children) (ARITY - 1 - j) = true ↔
      (sl.children.getD j none).isSome = true) ∧
    levelBitflags [some 7, none, none, some 9] = 9 ∧
    mkLeaves [some 7, none, none, some 9] = [(9 : Scalar), 7, 0, 0, 9] := by
  refine ⟨?_, rfl, levelBitflags_testBit sl.children j hj, by decide, by decide⟩
  rw [fromBranch_levels_getElem b pb hb i hi, hsl]
  rfl

theorem bitmask_bit_iff_occupied_witness :
    pbEx.levels[0]? = some (mkLevel slEx) ∧
    (mkLevel slEx).leaves.headD 0 = ((levelBitflags slEx.children : Nat) : Scalar) ∧
    (Nat.testBit (levelBitflags slEx.children) (ARITY - 1 - 0) = true ↔
      (slEx.children.getD 0 none).isSome = true) ∧
    levelBitflags [some 7, none, none, some 9] = 9 ∧
    mkLeaves [some 7, none, none, some 9] = [(9 : Scalar), 7, 0, 0, 9] :=
  bitmask_bit_iff_occupied bEx pbEx slEx 0 0 (by decide) (by decide) (by decide)
    (by decide)

/-- C2: for every level produced by the branch extractor, the stored offset is
the store-reported offset plus one, and if the store-reported offset lies in
`[0, ARITY)` then the stored offset lies in `[1, WIDTH)`. -/
theorem offset_shift (b : KelvinBranch) (pb : PoseidonBranch) (sl : StoreLevel)
    (i : Nat) (hb : fromBranch b = some pb)
    (hsl : b.levels[b.levels.length - 1 - i]? = some sl)
    (hi : i < b.levels.length) :
    pb.levels[i]? = some (mkLevel sl) ∧
    (mkLevel sl).offset = sl.offset + 1 ∧
    (sl.offset < ARITY → 1 ≤ (mkLevel sl).offset ∧ (mkLevel sl).offset < WIDTH) := by
  refine ⟨?_, rfl, ?_⟩
  · rw [fromBranch_levels_getElem b pb hb i hi, hsl]
    rfl
  · intro h
    have h4 : sl.offset < 4 := h
    constructor
    · exact Nat.succ_le_succ (Nat.zero_le _)
    · show sl.offset + 1 < WIDTH
      have hW : WIDTH = 5 := rfl
      omega

theorem offset_shift_witness :
    pbEx.levels[0]? = some (mkLevel slEx) ∧
    (mkLevel slEx).offset = slEx.offset + 1 ∧
    (slEx.offset < ARITY → 1 ≤ (mkLevel slEx).offset ∧ (mkLevel slEx).offset < WIDTH) :=
  offset_shift bEx pbEx slEx 0 (by decide) (by decide) (by decide)

/-- C5: the root of the extracted `PoseidonBranch` is the first (top) store
level's annotation value, copied verbatim with no hashing. -/
theorem root_copied_verbatim (b : KelvinBranch) (pb : PoseidonBranch)
    (top : StoreLevel) (hb : fromBranch b = some pb)
    (htop : b.levels.head? = some top) :
    top.ann = some pb.root := by
  obtain ⟨-, -, top', htop', hann⟩ := fromBranch_some b pb hb
  rw [htop] at htop'
  injection htop' with h
  rw [h]
  exact hann

theorem root_copied_verbatim_witness : l0Ex.ann = some pbEx.root :=
  root_copied_verbatim bEx pbEx l0Ex (by decide) (by decide)

/-- C6: the extracted branch has exactly as many levels as the store path, in
reverse order: `levels[i]` is built from store level `L - 1 - i`, so index 0
is the leaf's own (bottom) level and increasing index moves toward the root. -/
theorem levels_reversed (b : KelvinBranch) (pb : PoseidonBranch) (i : Nat)
    (hb : fromBranch b = some pb) (hi : i < b.levels.length) :
    pb.levels.length = b.levels.length ∧
    pb.levels[i]? = (b.levels[b.levels.length - 1 - i]?).map mkLevel :=
  ⟨fromBranch_levels_length b pb hb, fromBranch_levels_getElem b pb hb i hi⟩

theorem levels_reversed_witness :
    pbEx.levels.length = bEx.levels.length ∧
    pbEx.levels[0]? = (bEx.levels[bEx.levels.length - 1 - 0]?).map mkLevel :=
  levels_reversed bEx pbEx 0 (by decide) (by decide)

/-- C7: for every level produced by the branch extractor, `leaves[1+i]` is
child `i`'s annotation value when occupied and the zero scalar when empty; a
level with zero occupied children is still valid, with bitmask 0 and all-zero
leaves. -/
theorem child_values_copied (b : KelvinBranch) (pb : PoseidonBranch)
    (sl : StoreLevel) (i j : Nat) (hb : fromBranch b = some pb)
    (hsl : b.levels[b.levels.length - 1 - i]? = some sl)
    (hi : i < b.levels.length) (hj : j < ARITY) :
    pb.levels[i]? = some (mkLevel sl) ∧
    (mkLevel sl).leaves.getD (1 + j) 0 = (sl.children.getD j none).getD 0 ∧
    (mkLevel sl).leaves.length = WIDTH ∧
    (sl.children.all Option.isNone = true →
      levelBitflags sl.children = 0 ∧
      (mkLevel sl).leaves = List.replicate WIDTH 0) := by
  refine ⟨?_, mkLeaves_getD sl.children j hj, mkLeaves_length sl.children,
    fun h => ⟨levelBitflags_all_none _ h, mkLeaves_all_none _ h⟩⟩
  rw [fromBranch_levels_getElem b pb hb i hi, hsl]
  rfl

theorem child_values_copied_witness :
    pbEx.levels[0]? = some (mkLevel slEx) ∧
    (mkLevel slEx).leaves.getD (1 + 3) 0 = (slEx.children.getD 3 none).getD 0 ∧
    (mkLevel slEx).leaves.length = WIDTH ∧
    (slEx.children.all Option.isNone = true →
      levelBitflags slEx.children = 0 ∧
      (mkLevel slEx).leaves = List.replicate WIDTH 0) :=
  child_values_copied bEx pbEx slEx 0 3 (by decide) (by decide) (by decide)
    (by decide)

/-- C3 counterexample: the `From` conversion never appends padding levels, so a
one-level store path yields `levels.len() + padding_levels.len() = 1`, not the
configured fixed tree depth (17). -/
theorem padding_never_appended_cex :
    (fromBranch ⟨[⟨some 5, [some 7, none, none, some 9], 2⟩]⟩).map
        (fun pb => pb.levels.length + pb.padding_levels.length) = some 1 ∧
    TREE_DEPTH = 17 ∧ (1 : Nat) ≠ TREE_DEPTH := by
  decide

/-- C3 amended: the branch extractor itself appends no padding levels:
`padding_levels` is always empty and `levels.len()` equals the number of
store-path levels, so `levels.len() + padding_levels.len()` equals the store
path's level count rather than the configured fixed tree depth. -/
theorem extractor_appends_no_padding (b : KelvinBranch) (pb : PoseidonBranch)
    (hb : fromBranch b = some pb) :
    pb.padding_levels = [] ∧ pb.levels.length = b.levels.length ∧
    pb.levels.length + pb.padding_levels.length = b.levels.length := by
  obtain ⟨hl, hp, -⟩ := fromBranch_some b pb hb
  refine ⟨hp, ?_, ?_⟩ <;> simp [hl, hp]

theorem extractor_appends_no_padding_witness :
    pbEx.padding_levels = [] ∧ pbEx.levels.length = bEx.levels.length ∧
    pbEx.levels.length + pbEx.padding_levels.length = bEx.levels.length :=
  extractor_appends_no_padding bEx pbEx (by decide)

/-- C4 counterexample: a store level reporting offset 7, outside `[0, ARITY)`,
does not make the extractor fail: it silently produces a `PoseidonBranch`
whose level carries offset 8, outside `[1, WIDTH)`. -/
theorem offset_never_validated_cex :
    fromBranch ⟨[⟨some 0, [], 7⟩]⟩
      = some ⟨0, [⟨8, [0, 0, 0, 0, 0]⟩], []⟩ ∧
    ¬ (7 < ARITY) ∧ ¬ (8 < WIDTH) := by
  decide

/-- C4 amended: the extractor performs no validation of the store-reported
offset: even when that offset lies outside `[0, ARITY)` it succeeds and
produces a `PoseidonBranch` carrying `offset = store_offset + 1`, which lies
outside `[1, WIDTH)`. -/
theorem extractor_accepts_out_of_range_offset (sl : StoreLevel) (r : Scalar)
    (hann : sl.ann = some r) (hoff : ARITY ≤ sl.offset) :
    fromBranch ⟨[sl]⟩ = some ⟨r, [mkLevel sl], []⟩ ∧
    (mkLevel sl).offset = sl.offset + 1 ∧
    ¬ ((mkLevel sl).offset < WIDTH) := by
  refine ⟨?_, rfl, ?_⟩
  · unfold fromBranch
    simp only [List.head?_cons]
    rw [hann]
    rfl
  · intro hcon
    have h4 : 4 ≤ sl.offset := hoff
    have h5 : sl.offset + 1 < 5 := hcon
    omega

theorem extractor_accepts_out_of_range_offset_witness :
    fromBranch ⟨[slBad]⟩ = some ⟨0, [mkLevel slBad], []⟩ ∧
    (mkLevel slBad).offset = slBad.offset + 1 ∧
    ¬ ((mkLevel slBad).offset < WIDTH) :=
  extractor_accepts_out_of_range_offset slBad 0 (by decide) (by decide)

/-- C10: `PoseidonBranch::with_capacity(n)` equals `PoseidonBranch::new()` as a
value for every `n`: both have zero root and empty `levels` and
`padding_levels`; and `root()` returns exactly the stored root field. -/
theorem with_capacity_eq_new (n : Nat) :
    PoseidonBranch.withCapacity n = PoseidonBranch.new ∧
    PoseidonBranch.new.root = 0 ∧
    PoseidonBranch.new.levels = [] ∧
    PoseidonBranch.new.padding_levels = [] ∧
    ∀ b : PoseidonBranch, b.root' = b.root :=
  ⟨rfl, rfl, rfl, rfl, fun _ => rfl⟩

/-- C8: for every width-preserving permutation, secret, nonce, and message of
length at most `MESSAGE_CAPACITY`, decrypting the encryption returns that same
message (zero-padded to `MESSAGE_CAPACITY` words, which is the message itself
when it already has full length). -/
theorem cipher_round_trip (perm : List Scalar → List Scalar)
    (message : List Scalar) (secret nonce : Scalar)
    (hperm : ∀ st, (perm st).length = WIDTH)
    (hlen : message.length ≤ MESSAGE_CAPACITY) :
    decrypt perm (encrypt perm message secret nonce) secret nonce
      = some (padMessage message) ∧
    (message.length = MESSAGE_CAPACITY → padMessage message = message) := by
  constructor
  · have hcwl : (cipherWords perm message secret nonce).length = MESSAGE_CAPACITY :=
      cipherWords_length perm message secret nonce hperm hlen
    have htake : (encrypt perm message secret nonce).take MESSAGE_CAPACITY
        = cipherWords perm message secret nonce := by
      rw [encrypt, List.take_left' hcwl]
    have hgetD : (encrypt perm message secret nonce).getD MESSAGE_CAPACITY 0
        = tagOf perm (cipherWords perm message secret nonce) secret nonce := by
      rw [encrypt, List.getD_eq_getElem?_getD,
        List.getElem?_append_right (le_of_eq hcwl), hcwl]
      simp
    rw [decrypt, htake, hgetD, if_pos rfl, cipherWords]
    refine congrArg _ (zipWith_sub_zipWith_add _ _ ?_)
    rw [padMessage_length message hlen, List.length_take, keystream, hperm]
    decide
  · intro h
    show message.take MESSAGE_CAPACITY ++
        List.replicate (MESSAGE_CAPACITY - message.length) 0 = message
    rw [h, Nat.sub_self, List.replicate_zero, List.append_nil,
      List.take_of_length_le h.le]

theorem cipher_round_trip_witness :
    decrypt testPerm (encrypt testPerm [3, 4] 5 6) 5 6 = some (padMessage [3, 4]) ∧
    (([3, 4] : List Scalar).length = MESSAGE_CAPACITY → padMessage [3, 4] = [3, 4]) :=
  cipher_round_trip testPerm [3, 4] 5 6
    (fun st => by
      simp only [testPerm, List.length_take, List.length_append,
        List.length_map, List.length_replicate]
      omega)
    (by decide)

/-- C9: the cipher size constants satisfy `MESSAGE_CAPACITY = 2`,
`CIPHER_SIZE = MESSAGE_CAPACITY + 1 = 3`, and
`ENCRYPTED_DATA_SIZE = CIPHER_SIZE * 32 = 96`, and a cipher of `CIPHER_SIZE`
scalars serializes to exactly `ENCRYPTED_DATA_SIZE` bytes. -/
theorem cipher_size_constants (c : List Scalar) (hc : c.length = CIPHER_SIZE) :
    MESSAGE_CAPACITY = 2 ∧ CIPHER_SIZE = MESSAGE_CAPACITY + 1 ∧ CIPHER_SIZE = 3 ∧
    ENCRYPTED_DATA_SIZE = CIPHER_SIZE * 32 ∧ ENCRYPTED_DATA_SIZE = 96 ∧
    (cipherToBytes c).length = ENCRYPTED_DATA_SIZE := by
  refine ⟨rfl, rfl, rfl, rfl, rfl, ?_⟩
  rw [cipherToBytes, List.length_flatten, List.map_map]
  have hlen : (List.length ∘ scalarToBytes) = fun _ : Scalar => 32 := by
    funext s
    simp [scalarToBytes]
  rw [hlen, List.map_const', List.sum_const_nat, hc]
  rfl

theorem cipher_size_constants_witness :
    MESSAGE_CAPACITY = 2 ∧ CIPHER_SIZE = MESSAGE_CAPACITY + 1 ∧ CIPHER_SIZE = 3 ∧
    ENCRYPTED_DATA_SIZE = CIPHER_SIZE * 32 ∧ ENCRYPTED_DATA_SIZE = 96 ∧
    (cipherToBytes [1, 2, 3]).length = ENCRYPTED_DATA_SIZE :=
  cipher_size_constants [1, 2, 3] (by decide)

end DuskPoseidon
